import Mathlib

/-!
# CSR-generator: shallow embedding and verification

A shallow embedding in Lean 4 of the validation and composition core of the
CSR-generator web service (`server.js` across its revisions, plus the server
revision embedded in `test.mjs`): the field validators, the subject-DN
composer and parser, the key-usage bitmask builder and extractor, the
custom-extension pipeline, the SAN pipeline, and the key-pair dispatch.

JavaScript strings are modelled as `List Char`; JS truthiness of a string is
modelled as non-emptiness of the list.  `String.prototype.indexOf` is
modelled by a recursive first-occurrence search returning `Int` (−1 when
absent), `split(c)` by `splitOnChar`, `trim()` by `jsTrim`, and the regexes
of the source by structurally equivalent decidable predicates.
-/

namespace CSRGen

/-! ## Character and list primitives -/

/-- JS `\s` for the ASCII whitespace characters relevant here
(space, tab, LF, CR, VT, FF). -/
def jsIsSpace (c : Char) : Bool :=
  c = ' ' || c = '\t' || c = '\n' || c = '\r' || c = '\x0b' || c = '\x0c'

/-- JS `String.prototype.trim`: strip whitespace from both ends. -/
def jsTrim (l : List Char) : List Char :=
  ((l.dropWhile jsIsSpace).reverse.dropWhile jsIsSpace).reverse

/-- JS `String.prototype.split(c)` on a single-character separator.
`splitOnChar c []` is `[[]]`, matching `''.split(c) === ['']`. -/
def splitOnChar (c : Char) : List Char → List (List Char)
  | [] => [[]]
  | x :: xs =>
    if x = c then [] :: splitOnChar c xs
    else
      match splitOnChar c xs with
      | [] => [[x]]
      | h :: t => (x :: h) :: t

/-- Index of the first occurrence of `c` in `l`, if any. -/
def firstIndexOf? (c : Char) : List Char → Option Nat
  | [] => none
  | x :: xs => if x = c then some 0 else (firstIndexOf? c xs).map (· + 1)

/-- JS `String.prototype.indexOf` on a single character: the index of the
first occurrence, `-1` when absent. -/
def jsIndexOf (l : List Char) (c : Char) : Int :=
  match firstIndexOf? c l with
  | none => -1
  | some i => i

/-- The class `[a-zA-Z0-9]` (ASCII alphanumeric, as in the DNS-label regexes). -/
def isAlnum (c : Char) : Bool :=
  ('a' ≤ c && c ≤ 'z') || ('A' ≤ c && c ≤ 'Z') || ('0' ≤ c && c ≤ '9')

/-- The class `[a-zA-Z0-9-]` (alphanumeric or hyphen). -/
def isAlnumHyphen (c : Char) : Bool :=
  isAlnum c || c = '-'

/-! ## Key usage (`buildKeyUsageExtension` / `extractKeyUsageFromExtension`)

The name→bit table is `flagMap` in both functions of `server.js` (v1.1.0);
the numeric values are those of the `x509.KeyUsageFlags` enum it references
(distinct powers of two, `digitalSignature = 1` … `decipherOnly = 256`). -/

/-- The `flagMap` name→bit table; `0` models an absent (`undefined`) entry,
which is falsy in the JS truthiness guards. -/
def kuFlagVal : String → Nat
  | "digitalSignature" => 1
  | "nonRepudiation" => 2
  | "keyEncipherment" => 4
  | "dataEncipherment" => 8
  | "keyAgreement" => 16
  | "keyCertSign" => 32
  | "cRLSign" => 64
  | "encipherOnly" => 128
  | "decipherOnly" => 256
  | _ => 0

/-- Bit position of each flag (so `kuFlagVal n = 2 ^ kuBit n` on the table). -/
def kuBit : String → Nat
  | "digitalSignature" => 0
  | "nonRepudiation" => 1
  | "keyEncipherment" => 2
  | "dataEncipherment" => 3
  | "keyAgreement" => 4
  | "keyCertSign" => 5
  | "cRLSign" => 6
  | "encipherOnly" => 7
  | "decipherOnly" => 8
  | _ => 9

/-- The nine flag names, in the order of the extraction table. -/
def kuNames : List String :=
  ["digitalSignature", "nonRepudiation", "keyEncipherment", "dataEncipherment",
   "keyAgreement", "keyCertSign", "cRLSign", "encipherOnly", "decipherOnly"]

/-- The fold of `buildKeyUsageExtension`:
`for (const usage of keyUsage) if (flagMap[usage]) flags |= flagMap[usage]`. -/
def buildKeyUsageFlags (keyUsage : List String) : Nat :=
  keyUsage.foldl (fun fl u => if kuFlagVal u ≠ 0 then fl ||| kuFlagVal u else fl) 0

/-- A `KeyUsagesExtension` value: the bitmask and the critical flag. -/
structure KeyUsageExtension where
  usages : Nat
  critical : Bool
  deriving Repr, DecidableEq

/-- The builder `buildKeyUsageExtension(keyUsage)`: fold the flags, mark critical. -/
def buildKeyUsageExtension (keyUsage : List String) : KeyUsageExtension :=
  ⟨buildKeyUsageFlags keyUsage, true⟩

/-- The extractor `extractKeyUsageFromExtension(ext)`: walk the table in order and keep the
names whose bit is set (`if (ext.usages & flag) usages.push(name)`). -/
def extractKeyUsageFromExtension (ext : KeyUsageExtension) : List String :=
  kuNames.filter (fun name => ext.usages &&& kuFlagVal name ≠ 0)

/-! ## Password validation (`validatePassword`, server v1.1.0) -/

/-- The two failure kinds of `validatePassword`. -/
inductive PasswordError
  | tooWeak
  | insufficientComplexity
  deriving Repr, DecidableEq

/-- The test `/[A-Z]/.test(password)`. -/
def hasUpperCase (p : List Char) : Bool := p.any fun c => 'A' ≤ c && c ≤ 'Z'

/-- The test `/[a-z]/.test(password)`. -/
def hasLowerCase (p : List Char) : Bool := p.any fun c => 'a' ≤ c && c ≤ 'z'

/-- The test `/\d/.test(password)`. -/
def hasNumber (p : List Char) : Bool := p.any fun c => '0' ≤ c && c ≤ '9'

/-- The fixed punctuation class of the password regex. -/
def pwSpecialChars : List Char := "!@#$%^&*(),.?\":\x7b\x7d|<>".toList

/-- The test `/[!@#$%^&*(),.?":{}|<>]/.test(password)` (braces escaped above). -/
def hasSpecialChar (p : List Char) : Bool := p.any fun c => pwSpecialChars.contains c

/-- The count `[hasUpperCase, hasLowerCase, hasNumber, hasSpecialChar].filter(Boolean).length`. -/
def strengthCount (p : List Char) : Nat :=
  ([hasUpperCase p, hasLowerCase p, hasNumber p, hasSpecialChar p].filter id).length

/-- The validator `validatePassword(password)`: an absent (falsy) password is valid; a
present one must have length ≥ 8 and at least 3 of the 4 character classes. -/
def validatePassword (password : List Char) : Option PasswordError :=
  if password = [] then none
  else if password.length < 8 then some .tooWeak
  else if strengthCount password < 3 then some .insufficientComplexity
  else none

/-! ## Key-pair dispatch (`generateKeyPair`, server v1.1.0) -/

/-- The algorithm a key pair is requested with: the WebCrypto parameters the
code passes to the external provider. -/
inductive KeyAlg
  | rsa (modulusLength : Nat)
  | ecdsa (namedCurve : String)
  deriving Repr, DecidableEq

/-- The `curveMap` alias table of `generateKeyPair`. -/
def curveMap : String → Option String
  | "prime256v1" => some "P-256"
  | "secp384r1" => some "P-384"
  | "secp521r1" => some "P-521"
  | "P-256" => some "P-256"
  | "P-384" => some "P-384"
  | "P-521" => some "P-521"
  | _ => none

/-- The selection `curveMap[curveName] || 'P-256'` (an absent or unknown name falls back). -/
def selectCurve (curveName : Option String) : String :=
  match curveName with
  | none => "P-256"
  | some s => (curveMap s).getD "P-256"

/-- The bit count `Number.parseInt(keySize) || 2048`, for an already-numeric `keySize`
(`none` models an absent or non-numeric value, whose parse is `NaN`). -/
def rsaBits (keySize : Option Nat) : Nat :=
  match keySize with
  | none => 2048
  | some n => if n = 0 then 2048 else n

/-- The dispatch of `generateKeyPair(keyType, keySize, curveName)`: ECDSA on
the selected curve when `keyType === 'ECDSA'`, otherwise RSA with the parsed
modulus length.  No branch rejects the request. -/
def generateKeyPairAlg (keyType : String) (keySize : Option Nat)
    (curveName : Option String) : KeyAlg :=
  if keyType = "ECDSA" then .ecdsa (selectCurve curveName)
  else .rsa (rsaBits keySize)

/-- Membership in the supported curve set `{P-256, P-384, P-521}`. -/
def isSupportedCurve (c : String) : Bool :=
  c = "P-256" || c = "P-384" || c = "P-521"

/-! ## Custom extensions (generate endpoint, custom-extension block)

The later server revision iterates `for (const ext of customExtensions)`,
skips entries whose `oid` or `value` is falsy, rejects an `oid` that fails
`^[0-9]+(\.[0-9]+)+$` (dot-separated numbers, at least two components), and
otherwise pushes `{id: ext.oid, critical: ext.critical || false, value:
ext.value}`. -/

/-- A request-side custom extension entry; `critical : Option Bool` models a
possibly-absent JSON field. -/
structure CustomExt where
  oid : List Char
  critical : Option Bool
  value : List Char
  deriving Repr, DecidableEq

/-- The extension object pushed into the CSR for a custom entry. -/
structure ExtensionObject where
  id : List Char
  critical : Bool
  value : List Char
  deriving Repr, DecidableEq

/-- The digit test `'0' ≤ c ≤ '9'` (the regex class `[0-9]`). -/
def isDigitChar (c : Char) : Bool := '0' ≤ c && c ≤ '9'

/-- The OID regex `^[0-9]+(\.[0-9]+)+$`: at least two dot-separated
components, each a non-empty run of digits. -/
def isValidOID (oid : List Char) : Bool :=
  let comps := splitOnChar '.' oid
  (2 ≤ comps.length) && comps.all fun comp => (comp ≠ []) && comp.all isDigitChar

/-- The custom-extension loop: skip falsy `oid`/`value`, reject a malformed
OID (the error carries the offending OID), else push the passthrough object
and continue. -/
def processCustomExtensions : List CustomExt → Except (List Char) (List ExtensionObject)
  | [] => .ok []
  | ext :: rest =>
    if ext.oid ≠ [] ∧ ext.value ≠ [] then
      if isValidOID ext.oid then
        match processCustomExtensions rest with
        | .ok objs => .ok (⟨ext.oid, ext.critical.getD false, ext.value⟩ :: objs)
        | .error e => .error e
      else .error ext.oid
    else processCustomExtensions rest

/-! ## DNS / IP / email / URI SAN validation (server v1.1.0) -/

/-- The label regex `^[a-zA-Z0-9]([a-zA-Z0-9-]{0,61}[a-zA-Z0-9])?$`: one
alphanumeric character, or 2–63 characters with alphanumeric ends and
alphanumeric-or-hyphen interior. -/
def matchesLabelRegex : List Char → Bool
  | [] => false
  | [c] => isAlnum c
  | c :: rest =>
    isAlnum c && rest.length ≤ 62 &&
      (match rest.getLast? with
       | some d => isAlnum d
       | none => false) &&
      rest.dropLast.all isAlnumHyphen

/-- The fallback regex `^[a-zA-Z0-9]$`. -/
def matchesSingleAlnum : List Char → Bool
  | [c] => isAlnum c
  | _ => false

/-- The validator `validateDNSName(value)`: overall length 1–253, then per label: length
1–63, and either (`label === '*' && labels.indexOf(label) === 0` — note
`indexOf` finds the *first* occurrence of `'*'` in the label list) or one of
the two label regexes. -/
def validateDNSName (value : List Char) : Bool :=
  if value.length > 253 || value.length < 1 then false
  else
    let labels := splitOnChar '.' value
    labels.all fun label =>
      if label.length = 0 || label.length > 63 then false
      else if (label = ['*']) && (labels.indexOf label = 0) then true
      else matchesLabelRegex label || matchesSingleAlnum label

/-- The hex-digit class `[0-9a-fA-F]`. -/
def isHexChar (c : Char) : Bool :=
  isDigitChar c || ('a' ≤ c && c ≤ 'f') || ('A' ≤ c && c ≤ 'F')

/-- The IPv4 regex `^(\d{1,3}\.){3}\d{1,3}$`: exactly four dot-separated
runs of 1–3 digits. -/
def matchesIPv4 (v : List Char) : Bool :=
  let comps := splitOnChar '.' v
  (comps.length = 4) && comps.all fun comp =>
    (1 ≤ comp.length) && (comp.length ≤ 3) && comp.all isDigitChar

/-- The IPv6 regex `^([0-9a-fA-F]{0,4}:){2,7}[0-9a-fA-F]{0,4}$`: 3–8
colon-separated groups of at most four hex digits. -/
def matchesIPv6 (v : List Char) : Bool :=
  let comps := splitOnChar ':' v
  (3 ≤ comps.length) && (comps.length ≤ 8) && comps.all fun comp =>
    (comp.length ≤ 4) && comp.all isHexChar

/-- The validator `validateIPAddress(value)`. -/
def validateIPAddress (v : List Char) : Bool := matchesIPv4 v || matchesIPv6 v

/-- The validator `validateEmailFormat(value)` (the SAN-entry email check). -/
def validateEmailFormat (v : List Char) : Bool :=
  if v.length > 254 then false
  else
    let atIndex := jsIndexOf v '@'
    if atIndex < 1 then false
    else
      let domain := v.drop (atIndex.toNat + 1)
      (domain ≠ []) && (jsIndexOf domain '.' ≥ 1) && !(v.any jsIsSpace)

/-- A request-side SAN entry. -/
structure SANEntry where
  type : String
  value : List Char
  deriving Repr, DecidableEq

/-- The dispatcher `validateSAN(san)`, with the URI check (`new URL`) abstracted as the
external predicate `uriOk`; types other than the four known ones pass. -/
def validateSAN (uriOk : List Char → Bool) (san : SANEntry) : Bool :=
  let value := jsTrim san.value
  if (san.type = "DNS") && !validateDNSName value then false
  else if (san.type = "IP") && !validateIPAddress value then false
  else if (san.type = "email") && !validateEmailFormat value then false
  else if (san.type = "URI") && !uriOk value then false
  else true

/-- A SAN extension entry as handed to the external builder
(`buildSANExtension`). -/
structure SANExtEntry where
  type : String
  value : List Char
  deriving Repr, DecidableEq

/-- The `typeMap` of `buildSANExtension`, with its `|| 'dns'` fallback. -/
def sanTypeMap (t : String) : String :=
  if t = "DNS" then "dns"
  else if t = "IP" then "ip"
  else if t = "email" then "email"
  else if t = "URI" then "url"
  else "dns"

/-- The builder `buildSANExtension(validSANs)`: map each entry through the type table,
trimming the value. -/
def buildSANExtension (validSANs : List SANEntry) : List SANExtEntry :=
  validSANs.map fun san => ⟨sanTypeMap san.type, jsTrim san.value⟩

/-- The SAN pipeline of the generate endpoint: keep the entries whose value
is truthy after trimming, reject at the first invalid one, and emit the SAN
extension only when at least one valid entry remains (`.ok none` = no
SubjectAltName extension, request succeeds). -/
def processSANs (uriOk : List Char → Bool) (subjectAltNames : List SANEntry) :
    Except SANEntry (Option (List SANExtEntry)) :=
  let validSANs := subjectAltNames.filter fun san => jsTrim san.value ≠ []
  match validSANs.find? (fun san => !validateSAN uriOk san) with
  | some bad => .error bad
  | none => .ok (if validSANs ≠ [] then some (buildSANExtension validSANs) else none)

/-! ## Top-level email validation (`validateEmail`, server v1.1.0) -/

/-- The validator `validateEmail(email)`: an absent (falsy) email is valid; a present one
must be at most 254 characters, its first `@` at index 1–64, the part after
that `@` non-empty with a `.` at index ≥ 1, and no whitespace anywhere. -/
def validateEmail (email : List Char) : Bool :=
  if email = [] then true
  else if email.length > 254 then false
  else
    let atIndex := jsIndexOf email '@'
    if atIndex < 1 || atIndex > 64 then false
    else
      let localPart := email.take atIndex.toNat
      let domainPart := email.drop (atIndex.toNat + 1)
      if localPart = [] || domainPart = [] || jsIndexOf domainPart '.' < 1
          || email.any jsIsSpace then false
      else true

/-- The email acceptance condition as the claim states it: at most 254
characters, exactly one `@` with non-empty local and domain parts, a dot in
the domain, and no whitespace. -/
def claimedEmailCond (email : List Char) : Prop :=
  email.length ≤ 254 ∧
  email.count '@' = 1 ∧
  (∃ localPart domainPart,
    email = localPart ++ '@' :: domainPart ∧ localPart ≠ [] ∧
    domainPart ≠ [] ∧ '.' ∈ domainPart) ∧
  email.any jsIsSpace = false

/-- The amended acceptance condition: at most 254 characters; the part
before the *first* `@` is non-empty and at most 64 characters; the part
after it contains a dot and does not start with one; no whitespace. -/
def amendedEmailCond (email : List Char) : Prop :=
  email.length ≤ 254 ∧
  ∃ localPart domainPart,
    email = localPart ++ '@' :: domainPart ∧
    '@' ∉ localPart ∧
    1 ≤ localPart.length ∧ localPart.length ≤ 64 ∧
    '.' ∈ domainPart ∧ domainPart.head? ≠ some '.' ∧
    email.any jsIsSpace = false

/-- The per-label condition of the claimed wildcard policy: length 1–63,
alphanumeric-or-hyphen, not starting or ending with a hyphen. -/
def claimedLabelOk (label : List Char) : Bool :=
  (1 ≤ label.length) && (label.length ≤ 63) && label.all isAlnumHyphen &&
    (match label.head? with
     | some c => !(c = '-')
     | none => false) &&
    (match label.getLast? with
     | some c => !(c = '-')
     | none => false)

/-- The wildcard SAN policy as the specification states it (for comparison
with `validateDNSName`): every label satisfies `claimedLabelOk`, except that
a single literal `*` is permitted only as the entire first label. -/
def claimedDNSPolicy (value : List Char) : Bool :=
  (1 ≤ value.length) && (value.length ≤ 253) &&
    match splitOnChar '.' value with
    | [] => false
    | first :: rest =>
      (claimedLabelOk first || (first = ['*'])) && rest.all claimedLabelOk

/-! ## Subject DN composition and recovery
(`buildSubjectDN` / `parseSubjectDN`, server v1.1.0) -/

/-- JS `Array.prototype.join(', ')`. -/
def joinCommaSpace : List (List Char) → List Char
  | [] => []
  | [p] => p
  | p :: q :: rest => p ++ ',' :: ' ' :: joinCommaSpace (q :: rest)

/-- JS `Array.prototype.join(c)` on a single-character separator
(`valueParts.join('=')`). -/
def joinChar (c : Char) : List (List Char) → List Char
  | [] => []
  | [p] => p
  | p :: q :: rest => p ++ c :: joinChar c (q :: rest)

/-- The seven DN fields of the request body; `[]` models an absent (falsy)
field.  `commonName` is required by the upstream validator. -/
structure SubjectDescriptor where
  country : List Char
  state : List Char
  locality : List Char
  organization : List Char
  organizationalUnit : List Char
  commonName : List Char
  email : List Char
  deriving Repr, DecidableEq

/-- The validator `validateCommonName(commonName)`: required (truthy after trim) and at
most 64 characters. -/
def validateCommonName (commonName : List Char) : Bool :=
  if jsTrim commonName = [] then false
  else if commonName.length > 64 then false
  else true

/-- The `(short key, value)` pairs `buildSubjectDN` renders, in its fixed
order, keeping only truthy fields (`CN` unconditionally). -/
def subjectPairs (s : SubjectDescriptor) : List (List Char × List Char) :=
  (if s.country ≠ [] then [("C".toList, s.country)] else []) ++
  (if s.state ≠ [] then [("ST".toList, s.state)] else []) ++
  (if s.locality ≠ [] then [("L".toList, s.locality)] else []) ++
  (if s.organization ≠ [] then [("O".toList, s.organization)] else []) ++
  (if s.organizationalUnit ≠ [] then [("OU".toList, s.organizationalUnit)] else []) ++
  [("CN".toList, s.commonName)] ++
  (if s.email ≠ [] then [("E".toList, s.email)] else [])

/-- The composer `buildSubjectDN(...)`: push the template strings `C=...`, `ST=...`, …,
`CN=...`, `E=...` for the truthy fields, in that order, and join with
`', '`. -/
def buildSubjectDN (s : SubjectDescriptor) : List Char :=
  joinCommaSpace ((subjectPairs s).map fun pr => pr.1 ++ '=' :: pr.2)

/-- The `keyMap` of `parseSubjectDN`, with its `|| key` fallback. -/
def keyMapLookup (k : List Char) : List Char :=
  if k = "CN".toList then "commonName".toList
  else if k = "O".toList then "organizationName".toList
  else if k = "OU".toList then "organizationalUnitName".toList
  else if k = "L".toList then "localityName".toList
  else if k = "ST".toList then "stateOrProvinceName".toList
  else if k = "C".toList then "countryName".toList
  else if k = "E".toList then "emailAddress".toList
  else k

/-- JS object property assignment `subject[k] = v`: overwrite in place when
the key exists (JS preserves first-insertion order on reassignment), else
append. -/
def objInsert (m : List (List Char × List Char)) (k v : List Char) :
    List (List Char × List Char) :=
  if m.any fun p => p.1 = k then m.map fun p => if p.1 = k then (k, v) else p
  else m ++ [(k, v)]

/-- One iteration of `parseSubjectDN`'s loop:
`const [key, ...valueParts] = part.split('='); const value =
valueParts.join('='); if (value) subject[keyMap[key.trim()] || key.trim()] =
value.trim()`. -/
def parseStep (subj : List (List Char × List Char)) (part : List Char) :
    List (List Char × List Char) :=
  match splitOnChar '=' part with
  | [] => subj
  | key :: valueParts =>
    let value := joinChar '=' valueParts
    if value ≠ [] then objInsert subj (keyMapLookup (jsTrim key)) (jsTrim value)
    else subj

/-- The parser `parseSubjectDN(subjectName)`: split on `','`, trim each part, and run
the attribute loop. -/
def parseSubjectDN (dn : List Char) : List (List Char × List Char) :=
  ((splitOnChar ',' dn).map jsTrim).foldl parseStep []

/-- The recovery the claim expects: the composed attributes keyed by their
long-form names, in the composed order. -/
def expectedSubject (s : SubjectDescriptor) : List (List Char × List Char) :=
  (if s.country ≠ [] then [("countryName".toList, s.country)] else []) ++
  (if s.state ≠ [] then [("stateOrProvinceName".toList, s.state)] else []) ++
  (if s.locality ≠ [] then [("localityName".toList, s.locality)] else []) ++
  (if s.organization ≠ [] then [("organizationName".toList, s.organization)] else []) ++
  (if s.organizationalUnit ≠ [] then
    [("organizationalUnitName".toList, s.organizationalUnit)] else []) ++
  [("commonName".toList, s.commonName)] ++
  (if s.email ≠ [] then [("emailAddress".toList, s.email)] else [])

/-- No whitespace at either end of a value. -/
def noEdgeSpace (v : List Char) : Bool :=
  (match v.head? with
   | some c => !jsIsSpace c
   | none => true) &&
  (match v.getLast? with
   | some c => !jsIsSpace c
   | none => true)

/-- A value participates cleanly in the DN round-trip: non-empty, without
commas, and without leading or trailing whitespace. -/
def cleanVal (v : List Char) : Prop :=
  v ≠ [] ∧ ',' ∉ v ∧ noEdgeSpace v = true

instance instDecidableCleanVal (v : List Char) : Decidable (cleanVal v) :=
  inferInstanceAs (Decidable (v ≠ [] ∧ ',' ∉ v ∧ noEdgeSpace v = true))

/-! ### Key-usage round-trip lemmas -/

/-- On the nine table names, `kuFlagVal` is the power of two at `kuBit`. -/
theorem kuFlagVal_eq_pow : ∀ n ∈ kuNames, kuFlagVal n = 2 ^ kuBit n := by decide

/-- The bit table `kuBit` is injective on the nine table names. -/
theorem kuBit_inj : ∀ a ∈ kuNames, ∀ b ∈ kuNames, kuBit a = kuBit b → a = b := by decide

/-- Bits of the folded mask: bit `i` is set iff some requested name
contributes it. -/
theorem buildKeyUsageFlags_testBit (ku : List String) (i : Nat) :
    (buildKeyUsageFlags ku).testBit i = ku.any (fun u => (kuFlagVal u).testBit i) := by
  have key : ∀ (l : List String) (init : Nat),
      (l.foldl (fun fl u => if kuFlagVal u ≠ 0 then fl ||| kuFlagVal u else fl) init).testBit i
        = (init.testBit i || l.any (fun u => (kuFlagVal u).testBit i)) := by
    intro l
    induction l with
    | nil => intro init; simp
    | cons u rest ih =>
      intro init
      have hstep : (if kuFlagVal u ≠ 0 then init ||| kuFlagVal u else init).testBit i
          = (init.testBit i || (kuFlagVal u).testBit i) := by
        by_cases hz : kuFlagVal u = 0
        · simp [hz, Nat.zero_testBit]
        · simp [hz, Nat.testBit_lor]
      simp only [List.foldl_cons, List.any_cons, ih, hstep, Bool.or_assoc]
  rw [buildKeyUsageFlags, key ku 0]
  simp

/-- Membership in the extracted list is exactly the corresponding mask bit. -/
theorem mem_extract_iff_testBit (ext : KeyUsageExtension) (name : String)
    (hn : name ∈ kuNames) :
    name ∈ extractKeyUsageFromExtension ext ↔ ext.usages.testBit (kuBit name) = true := by
  rw [extractKeyUsageFromExtension, List.mem_filter]
  rw [decide_eq_true_iff]
  constructor
  · rintro ⟨-, hbit⟩
    rw [kuFlagVal_eq_pow name hn, Nat.and_two_pow] at hbit
    rcases h : ext.usages.testBit (kuBit name) with _ | _
    · rw [h] at hbit; simp at hbit
    · rfl
  · intro hbit
    refine ⟨hn, ?_⟩
    rw [kuFlagVal_eq_pow name hn, Nat.and_two_pow, hbit]
    simp

/-- C1: Key-usage round-trip.  For every request list of key-usage flag
names drawn from the nine-name vocabulary, folding it into a bitmask with
`buildKeyUsageExtension` and extracting flag names from that bitmask with
`extractKeyUsageFromExtension` yields exactly the names of the request
(set equality, order-independent). -/
theorem keyUsage_roundtrip (ku : List String) (hku : ∀ u ∈ ku, u ∈ kuNames)
    (name : String) :
    name ∈ extractKeyUsageFromExtension (buildKeyUsageExtension ku) ↔ name ∈ ku := by
  by_cases hn : name ∈ kuNames
  · rw [mem_extract_iff_testBit _ _ hn]
    show (buildKeyUsageFlags ku).testBit (kuBit name) = true ↔ name ∈ ku
    rw [buildKeyUsageFlags_testBit, List.any_eq_true]
    constructor
    · rintro ⟨u, hu, hbit⟩
      have hun := hku u hu
      rw [kuFlagVal_eq_pow u hun] at hbit
      by_cases he : kuBit u = kuBit name
      · have := kuBit_inj u hun name hn he
        subst this; exact hu
      · rw [Nat.testBit_two_pow_of_ne he] at hbit; simp at hbit
    · intro hmem
      refine ⟨name, hmem, ?_⟩
      rw [kuFlagVal_eq_pow name hn]
      exact Nat.testBit_two_pow_self
  · constructor
    · intro hmem
      exact absurd (List.mem_of_mem_filter hmem) hn
    · intro hmem
      exact absurd (hku name hmem) hn

/-- Witness for C1: the two-flag request `keyCertSign, digitalSignature`
round-trips (both names recovered, a third name absent). -/
theorem keyUsage_roundtrip_witness :
    ("keyCertSign" ∈ extractKeyUsageFromExtension
        (buildKeyUsageExtension ["keyCertSign", "digitalSignature"])) ∧
    ("keyAgreement" ∉ extractKeyUsageFromExtension
        (buildKeyUsageExtension ["keyCertSign", "digitalSignature"])) :=
  ⟨(keyUsage_roundtrip ["keyCertSign", "digitalSignature"] (by decide)
      "keyCertSign").mpr (by decide),
   fun h => by
    have := (keyUsage_roundtrip ["keyCertSign", "digitalSignature"] (by decide)
      "keyAgreement").mp h
    simp at this⟩

/-- C6: Password strength gate.  For every present (non-empty)
`keyPassword`, validation fails with `TooWeak` when the length is below 8;
with length ≥ 8 it fails with `InsufficientComplexity` when fewer than 3 of
the 4 character classes are present, and succeeds when at least 3 are. -/
theorem validatePassword_gate (p : List Char) (hp : p ≠ []) :
    (p.length < 8 → validatePassword p = some .tooWeak) ∧
    (8 ≤ p.length → strengthCount p < 3 →
      validatePassword p = some .insufficientComplexity) ∧
    (8 ≤ p.length → 3 ≤ strengthCount p → validatePassword p = none) := by
  refine ⟨fun h1 => ?_, fun h1 h2 => ?_, fun h1 h2 => ?_⟩
  · simp [validatePassword, hp, h1]
  · simp [validatePassword, hp, Nat.not_lt.mpr h1, h2]
  · simp [validatePassword, hp, Nat.not_lt.mpr h1, Nat.not_lt.mpr h2]

/-- Witness for C6: `"abcdefgh"` (length 8, one class) is rejected for
complexity and `"Abcdef12"` (three classes) is accepted, via the gate
theorem at those concrete passwords. -/
theorem validatePassword_gate_witness :
    validatePassword ("abcdefgh".toList) = some .insufficientComplexity ∧
    validatePassword ("Abcdef12".toList) = none :=
  ⟨(validatePassword_gate ("abcdefgh".toList) (by decide)).2.1 (by decide) (by decide),
   (validatePassword_gate ("Abcdef12".toList) (by decide)).2.2 (by decide) (by decide)⟩

/-- Any hit in the curve alias table is one of the three supported curves. -/
theorem curveMap_supported (s c : String) (h : curveMap s = some c) :
    isSupportedCurve c = true := by
  unfold curveMap at h
  split at h <;> simp_all [isSupportedCurve]

/-- The selected curve is always supported. -/
theorem selectCurve_supported (curveName : Option String) :
    isSupportedCurve (selectCurve curveName) = true := by
  match curveName with
  | none => decide
  | some s =>
    show isSupportedCurve ((curveMap s).getD "P-256") = true
    match h : curveMap s with
    | none => decide
    | some c => exact curveMap_supported s c h

/-- C8: ECDSA key support.  Every `keyType = "ECDSA"` request is
dispatched (never rejected) to an ECDSA key generation on a curve from
`{P-256, P-384, P-521}`; the curve defaults to P-256 when absent, and the
OpenSSL aliases `prime256v1`, `secp384r1`, `secp521r1` map to their NIST
names. -/
theorem ecdsa_supported :
    (∀ (keySize : Option Nat) (curveName : Option String), ∃ c,
      generateKeyPairAlg "ECDSA" keySize curveName = .ecdsa c ∧
      isSupportedCurve c = true) ∧
    generateKeyPairAlg "ECDSA" none none = .ecdsa "P-256" ∧
    generateKeyPairAlg "ECDSA" none (some "prime256v1") = .ecdsa "P-256" ∧
    generateKeyPairAlg "ECDSA" none (some "secp384r1") = .ecdsa "P-384" ∧
    generateKeyPairAlg "ECDSA" none (some "secp521r1") = .ecdsa "P-521" ∧
    generateKeyPairAlg "ECDSA" none (some "P-384") = .ecdsa "P-384" := by
  refine ⟨fun keySize curveName => ⟨selectCurve curveName, rfl,
    selectCurve_supported curveName⟩, ?_, ?_, ?_, ?_, ?_⟩ <;> decide

/-- C9 counterexample: a request with `keySize = 512` is not rejected —
the RSA key is generated with a 512-bit modulus, outside `{2048,3072,4096}`,
refuting the claim that such sizes are never used. -/
theorem rsaBits_512_counterexample :
    generateKeyPairAlg "RSA" (some 512) none = .rsa 512 ∧
    ¬(512 = 2048 ∨ 512 = 3072 ∨ 512 = 4096) := by
  refine ⟨by decide, by decide⟩

/-- C9 (amended): the RSA modulus length is `parseInt(keySize)` whenever
that is a nonzero number — whatever the value, the set `{2048,3072,4096}` is
not enforced — and falls back to 2048 when `keySize` is absent or parses to
0/NaN. -/
theorem rsaBits_amended :
    generateKeyPairAlg "RSA" none none = .rsa 2048 ∧
    (∀ n : Nat, n ≠ 0 → generateKeyPairAlg "RSA" (some n) none = .rsa n) ∧
    generateKeyPairAlg "RSA" (some 0) none = .rsa 2048 := by
  refine ⟨by decide, fun n hn => ?_, by decide⟩
  simp [generateKeyPairAlg, rsaBits, hn]

/-- Witness for the amended C9: a default request uses 2048 bits and an
explicit 3072 is honored. -/
theorem rsaBits_amended_witness :
    generateKeyPairAlg "RSA" (some 3072) none = .rsa 3072 :=
  rsaBits_amended.2.1 3072 (by decide)

/-- C2: Custom extension passthrough.  When every custom-extension entry
has a well-formed OID and a (truthy) value, the pipeline emits one extension
object per entry, carrying that entry's OID, its critical flag (defaulting
to `false` when absent) and its value verbatim, in order. -/
theorem customExtensions_passthrough (l : List CustomExt)
    (h : ∀ e ∈ l, isValidOID e.oid = true ∧ e.value ≠ []) :
    processCustomExtensions l =
      .ok (l.map fun e => ⟨e.oid, e.critical.getD false, e.value⟩) := by
  induction l with
  | nil => rfl
  | cons e rest ih =>
    obtain ⟨hoid, hval⟩ := h e (List.mem_cons_self e rest)
    have hne : e.oid ≠ [] := by
      intro hnil
      rw [hnil] at hoid
      exact absurd hoid (by decide)
    have ihr := ih fun e' he' => h e' (List.mem_cons_of_mem _ he')
    simp [processCustomExtensions, hne, hval, hoid, ihr]

/-- Witness for C2: two concrete entries (one with an explicit critical
flag, one without) pass through verbatim. -/
theorem customExtensions_passthrough_witness :
    processCustomExtensions
        [⟨"1.2.3.4".toList, some true, "abc".toList⟩,
         ⟨"2.5.29.35".toList, none, "zz".toList⟩] =
      .ok [⟨"1.2.3.4".toList, true, "abc".toList⟩,
           ⟨"2.5.29.35".toList, false, "zz".toList⟩] :=
  customExtensions_passthrough _ (by decide)

/-- C3: Custom-extension OID format.  A bare single-component OID `"1"`
fails validation with the invalid-OID error (whatever follows it), while the
multi-component `"1.2.840.113549"` is accepted and passed through. -/
theorem customExtension_oid_format (critical : Option Bool) (v : List Char)
    (hv : v ≠ []) (rest : List CustomExt) :
    processCustomExtensions (⟨"1".toList, critical, v⟩ :: rest) =
      .error ("1".toList) ∧
    processCustomExtensions [⟨"1.2.840.113549".toList, critical, v⟩] =
      .ok [⟨"1.2.840.113549".toList, critical.getD false, v⟩] := by
  constructor
  · have h2 : isValidOID ['1'] = false := by decide
    simp [processCustomExtensions, h2, hv]
  · have h2 : isValidOID
        ['1', '.', '2', '.', '8', '4', '0', '.', '1', '1', '3', '5', '4', '9'] = true := by
      decide
    simp [processCustomExtensions, h2, hv]

/-- Witness for C3 at a concrete value and empty tail. -/
theorem customExtension_oid_format_witness :
    processCustomExtensions [⟨"1".toList, none, "x".toList⟩] =
      .error ("1".toList) ∧
    processCustomExtensions [⟨"1.2.840.113549".toList, none, "x".toList⟩] =
      .ok [⟨"1.2.840.113549".toList, false, "x".toList⟩] :=
  customExtension_oid_format none ("x".toList) (by decide) []

/-- C4 (divergence): the canonical cases behave as specified
(`*.example.com` accepted, `sub.*.example.com` rejected), but
`*.*.example.com` — a `*` label in second position — is *accepted* by
`validateDNSName`, because `labels.indexOf(label)` finds the *first*
occurrence of `'*'`; the claimed policy rejects it. -/
theorem validateDNSName_wildcard_divergence :
    validateDNSName ("*.example.com".toList) = true ∧
    validateDNSName ("sub.*.example.com".toList) = false ∧
    validateDNSName ("*.*.example.com".toList) = true ∧
    claimedDNSPolicy ("*.*.example.com".toList) = false := by decide

/-- C10: Blank SAN entries (empty or whitespace-only value) are dropped
before validation — the pipeline's result is the same as on the pre-filtered
list, so a blank entry can never be the reported error — and when every
entry is blank the pipeline succeeds with no SubjectAltName extension. -/
theorem blank_sans_dropped (uriOk : List Char → Bool) (l : List SANEntry)
    (h : ∀ s ∈ l, jsTrim s.value = []) :
    processSANs uriOk l = .ok none ∧
    (∀ l' : List SANEntry, processSANs uriOk l' =
      processSANs uriOk (l'.filter fun s => jsTrim s.value ≠ [])) := by
  constructor
  · have hfil : (l.filter fun san => jsTrim san.value ≠ []) = [] := by
      rw [List.filter_eq_nil_iff]
      intro s hs
      simp [h s hs]
    simp only [processSANs]
    rw [hfil]
    rfl
  · intro l'
    unfold processSANs
    rw [List.filter_filter]
    simp

/-- Witness for C10: a whitespace-only DNS entry and an empty IP entry
produce success with no SAN extension. -/
theorem blank_sans_dropped_witness :
    processSANs (fun _ => true)
      [⟨"DNS", "   ".toList⟩, ⟨"IP", "".toList⟩] = .ok none :=
  (blank_sans_dropped (fun _ => true) _ (by decide)).1

/-! ### First-occurrence index lemmas -/

/-- The search `firstIndexOf?` misses exactly when the character is absent. -/
theorem firstIndexOf?_eq_none_iff (c : Char) (l : List Char) :
    firstIndexOf? c l = none ↔ c ∉ l := by
  induction l with
  | nil => simp [firstIndexOf?]
  | cons x xs ih =>
    by_cases hx : x = c
    · subst hx
      simp [firstIndexOf?]
    · simp only [firstIndexOf?, if_neg hx, Option.map_eq_none', ih, List.mem_cons, not_or]
      constructor
      · intro h; exact ⟨fun he => hx he.symm, h⟩
      · intro h; exact h.2

/-- The search `firstIndexOf?` at an explicit first occurrence. -/
theorem firstIndexOf?_append (pre post : List Char) (c : Char) (h : c ∉ pre) :
    firstIndexOf? c (pre ++ c :: post) = some pre.length := by
  induction pre with
  | nil => simp [firstIndexOf?]
  | cons x xs ih =>
    have hx : x ≠ c := fun he => h (he ▸ List.mem_cons_self x xs)
    simp [firstIndexOf?, hx, ih fun hc => h (List.mem_cons_of_mem _ hc)]

/-- A found index decomposes the list at a first occurrence. -/
theorem firstIndexOf?_spec (c : Char) (l : List Char) (i : Nat)
    (h : firstIndexOf? c l = some i) :
    i < l.length ∧ l = l.take i ++ c :: l.drop (i + 1) ∧ c ∉ l.take i := by
  induction l generalizing i with
  | nil => simp [firstIndexOf?] at h
  | cons x xs ih =>
    by_cases hx : x = c
    · rw [firstIndexOf?, if_pos hx] at h
      obtain rfl : (0 : Nat) = i := Option.some_injective _ h
      subst hx
      simp
    · rw [firstIndexOf?, if_neg hx] at h
      match hfi : firstIndexOf? c xs with
      | none => rw [hfi] at h; simp at h
      | some j =>
        rw [hfi] at h
        simp only [Option.map_some'] at h
        obtain rfl : j + 1 = i := Option.some_injective _ h
        obtain ⟨hlt, hdec, hmem⟩ := ih j hfi
        refine ⟨by simpa using Nat.succ_lt_succ hlt, ?_, ?_⟩
        · show x :: xs = (x :: xs).take (j + 1) ++ c :: (x :: xs).drop (j + 2)
          simp only [List.take_succ_cons, List.drop_succ_cons]
          exact congrArg (x :: ·) hdec
        · show c ∉ (x :: xs).take (j + 1)
          simp only [List.take_succ_cons, List.mem_cons]
          rintro (rfl | hc)
          · exact hx rfl
          · exact hmem hc

/-- The head position is the first occurrence. -/
theorem firstIndexOf?_cons_self (c : Char) (xs : List Char) :
    firstIndexOf? c (c :: xs) = some 0 := by
  simp [firstIndexOf?]

/-- C5 counterexample: `"a@b@c.com"` contains two `@`s, so the claimed
condition rejects it, yet `validateEmail` accepts it (it splits at the
*first* `@` and never counts further occurrences). -/
theorem validateEmail_claim_counterexample :
    validateEmail ("a@b@c.com".toList) = true ∧
    ¬ claimedEmailCond ("a@b@c.com".toList) := by
  refine ⟨by decide, fun hc => absurd hc.2.1 (by decide)⟩

/-- C5 (amended): for every present email, `validateEmail` accepts it
iff it is at most 254 characters, the part before the first `@` is
non-empty and at most 64 characters, the part after it contains a dot and
does not start with one, and there is no whitespace. -/
theorem validateEmail_amended (email : List Char) (hne : email ≠ []) :
    validateEmail email = true ↔ amendedEmailCond email := by
  rw [validateEmail, if_neg hne]
  by_cases h254 : email.length > 254
  · rw [if_pos h254]
    constructor
    · intro h; exact absurd h (by simp)
    · intro hc; exact absurd hc.1 (by omega)
  · rw [if_neg h254]
    constructor
    · -- forward: unfold the index computation
      intro hv
      match hfi : firstIndexOf? '@' email with
      | none =>
        have hjs : jsIndexOf email '@' = -1 := by simp [jsIndexOf, hfi]
        rw [hjs] at hv
        simp at hv
      | some i =>
        have hjs : jsIndexOf email '@' = (i : Int) := by simp [jsIndexOf, hfi]
        rw [hjs] at hv
        simp only [Int.toNat_natCast] at hv
        split at hv
        · simp at hv
        next hrange =>
        split at hv
        · simp at hv
        next hinner =>
        simp only [Bool.or_eq_true, decide_eq_true_eq, not_or] at hrange hinner
        obtain ⟨hr1, hr2⟩ := hrange
        obtain ⟨⟨⟨hlp, hdp⟩, hdot⟩, hspn⟩ := hinner
        have hsp : email.any jsIsSpace = false := by simpa using hspn
        have hi1 : 1 ≤ i := by omega
        have hi64 : i ≤ 64 := by omega
        obtain ⟨hlt, hdec, hmem⟩ := firstIndexOf?_spec '@' email i hfi
        refine ⟨by omega, email.take i, email.drop (i + 1), hdec, hmem, ?_, ?_, ?_, ?_, hsp⟩
        · rw [List.length_take]; omega
        · rw [List.length_take]; omega
        · -- the domain contains a dot
          match hfd : firstIndexOf? '.' (List.drop (i + 1) email) with
          | none =>
            have : jsIndexOf (List.drop (i + 1) email) '.' = -1 := by
              simp [jsIndexOf, hfd]
            rw [this] at hdot
            omega
          | some j =>
            obtain ⟨-, hdd, -⟩ := firstIndexOf?_spec '.' _ j hfd
            rw [hdd]
            exact List.mem_append_right _ (List.mem_cons_self _ _)
        · -- and does not start with one
          match hfd : firstIndexOf? '.' (List.drop (i + 1) email) with
          | none =>
            have : jsIndexOf (List.drop (i + 1) email) '.' = -1 := by
              simp [jsIndexOf, hfd]
            rw [this] at hdot
            omega
          | some j =>
            have hjs2 : jsIndexOf (List.drop (i + 1) email) '.' = (j : Int) := by
              simp [jsIndexOf, hfd]
            rw [hjs2] at hdot
            intro hhead
            match hd : List.drop (i + 1) email with
            | [] => rw [hd] at hhead; simp at hhead
            | d :: rest =>
              rw [hd] at hhead
              simp only [List.head?_cons, Option.some_inj] at hhead
              subst hhead
              rw [hd, firstIndexOf?_cons_self] at hfd
              have h0 := Option.some_injective _ hfd
              omega
    · -- backward: reassemble the computation from the decomposition
      rintro ⟨-, lp, dp, hdec, hmem, hlp1, hlp64, hdot, hhead, hsp⟩
      have hlpne : lp ≠ [] := by
        intro hnil; rw [hnil] at hlp1; simp at hlp1
      have hfi : firstIndexOf? '@' email = some lp.length := by
        rw [hdec]; exact firstIndexOf?_append lp dp '@' hmem
      have hjs : jsIndexOf email '@' = (lp.length : Int) := by simp [jsIndexOf, hfi]
      rw [hjs]
      simp only [Int.toNat_natCast]
      have htake : email.take lp.length = lp := by
        rw [hdec]; exact List.take_left lp ('@' :: dp)
      have hdrop : email.drop (lp.length + 1) = dp := by
        have hsplit : email = (lp ++ ['@']) ++ dp := by simpa using hdec
        rw [hsplit]
        have hlen : (lp ++ ['@']).length = lp.length + 1 := by simp
        rw [← hlen]
        exact List.drop_left (lp ++ ['@']) dp
      have hdpne : dp ≠ [] := fun hnil => by rw [hnil] at hdot; simp at hdot
      have hdotidx : ¬ jsIndexOf dp '.' < 1 := by
        match hfd : firstIndexOf? '.' dp with
        | none => rw [firstIndexOf?_eq_none_iff] at hfd; exact absurd hdot hfd
        | some j =>
          have hj : j ≠ 0 := by
            intro hj0
            subst hj0
            obtain ⟨-, hdd, -⟩ := firstIndexOf?_spec '.' dp 0 hfd
            rw [hdd] at hhead
            simp at hhead
          have : jsIndexOf dp '.' = (j : Int) := by simp [jsIndexOf, hfd]
          rw [this]
          omega
      rw [if_neg (by simp [hlpne, hlp64])]
      rw [if_neg (by simp [htake, hdrop, hsp, hdpne, hdotidx, hlpne])]

/-- Witness for the amended C5: `"user@example.com"` is accepted, via the
iff at that concrete address. -/
theorem validateEmail_amended_witness :
    validateEmail ("user@example.com".toList) = true :=
  (validateEmail_amended ("user@example.com".toList) (by decide)).mpr
    ⟨by decide, "user".toList, "example.com".toList, by decide, by decide, by decide,
     by decide, by decide, by decide, by decide⟩

/-! ### Split/join/trim lemmas for the DN round-trip -/

/-- The splitter `splitOnChar` never returns the empty list of parts. -/
theorem splitOnChar_ne_nil (c : Char) (l : List Char) : splitOnChar c l ≠ [] := by
  induction l with
  | nil => simp [splitOnChar]
  | cons x xs ih =>
    rw [splitOnChar]
    split
    · simp
    · match hsp : splitOnChar c xs with
      | [] => exact absurd hsp ih
      | h :: t => simp

/-- Splitting on an absent separator keeps the list whole. -/
theorem splitOnChar_of_not_mem (c : Char) (l : List Char) (h : c ∉ l) :
    splitOnChar c l = [l] := by
  induction l with
  | nil => rfl
  | cons x xs ih =>
    have hx : ¬ x = c := fun he => h (he ▸ List.mem_cons_self x xs)
    rw [splitOnChar, if_neg hx, ih fun hc => h (List.mem_cons_of_mem _ hc)]

/-- Splitting at an explicit first separator occurrence. -/
theorem splitOnChar_append (c : Char) (pre post : List Char) (h : c ∉ pre) :
    splitOnChar c (pre ++ c :: post) = pre :: splitOnChar c post := by
  induction pre with
  | nil => simp [splitOnChar]
  | cons x xs ih =>
    have hx : ¬ x = c := fun he => h (he ▸ List.mem_cons_self x xs)
    rw [List.cons_append, splitOnChar, if_neg hx,
      ih fun hc => h (List.mem_cons_of_mem _ hc)]

/-- Joining a split recovers the original list. -/
theorem joinChar_splitOnChar (c : Char) (l : List Char) :
    joinChar c (splitOnChar c l) = l := by
  induction l with
  | nil => rfl
  | cons x xs ih =>
    by_cases hx : x = c
    · subst hx
      rw [splitOnChar, if_pos rfl]
      match hsp : splitOnChar x xs with
      | [] => exact absurd hsp (splitOnChar_ne_nil x xs)
      | h :: t =>
        rw [hsp] at ih
        rw [joinChar, List.nil_append]
        exact congrArg (x :: ·) ih
    · rw [splitOnChar, if_neg hx]
      match hsp : splitOnChar c xs with
      | [] => exact absurd hsp (splitOnChar_ne_nil c xs)
      | h :: t =>
        rw [hsp] at ih
        match t with
        | [] =>
          rw [joinChar] at ih ⊢
          exact congrArg (x :: ·) ih
        | t0 :: t1 =>
          rw [joinChar] at ih ⊢
          rw [List.cons_append]
          exact congrArg (x :: ·) ih

/-- The prefix-dropper `dropWhile` is the identity when the head (if any) fails the predicate. -/
theorem dropWhile_eq_self_of_head (p : Char → Bool) (l : List Char)
    (h : ∀ c0, l.head? = some c0 → p c0 = false) : l.dropWhile p = l := by
  match l with
  | [] => rfl
  | x :: xs => rw [List.dropWhile_cons, h x rfl]; simp

/-- A value with no whitespace at either end is already trimmed. -/
theorem jsTrim_eq_self (l : List Char) (h : noEdgeSpace l = true) : jsTrim l = l := by
  have hparts := h
  rw [noEdgeSpace, Bool.and_eq_true] at hparts
  obtain ⟨hh, hl⟩ := hparts
  have h1 : l.dropWhile jsIsSpace = l := by
    apply dropWhile_eq_self_of_head
    intro c0 hc0
    rw [hc0] at hh
    simpa using hh
  have h2 : l.reverse.dropWhile jsIsSpace = l.reverse := by
    apply dropWhile_eq_self_of_head
    intro c0 hc0
    rw [List.head?_reverse] at hc0
    rw [hc0] at hl
    simpa using hl
  rw [jsTrim, h1, h2, List.reverse_reverse]

/-- Trimming discards a leading space. -/
theorem jsTrim_cons_space (c0 : Char) (l : List Char) (h : jsIsSpace c0 = true) :
    jsTrim (c0 :: l) = jsTrim l := by
  rw [jsTrim, jsTrim, List.dropWhile_cons, h]
  simp

/-- Splitting a `', '`-join on `','` and trimming recovers the parts, when
each part is comma-free and already trimmed. -/
theorem splitOnChar_joinCommaSpace (parts : List (List Char)) (hne : parts ≠ [])
    (h : ∀ p ∈ parts, ',' ∉ p ∧ jsTrim p = p) :
    (splitOnChar ',' (joinCommaSpace parts)).map jsTrim = parts := by
  induction parts with
  | nil => exact absurd rfl hne
  | cons p rest ih =>
    obtain ⟨hpc, hpt⟩ := h p (List.mem_cons_self p rest)
    match rest with
    | [] =>
      rw [joinCommaSpace, splitOnChar_of_not_mem ',' p hpc]
      simp [hpt]
    | q :: qs =>
      rw [joinCommaSpace, splitOnChar_append ',' p _ hpc, List.map_cons, hpt]
      have hrest := ih (by simp) fun r hr => h r (List.mem_cons_of_mem _ hr)
      match hsp : splitOnChar ',' (joinCommaSpace (q :: qs)) with
      | [] => exact absurd hsp (splitOnChar_ne_nil _ _)
      | h0 :: t0 =>
        rw [hsp] at hrest
        have hsp2 : splitOnChar ',' (' ' :: joinCommaSpace (q :: qs)) =
            (' ' :: h0) :: t0 := by
          rw [splitOnChar, if_neg (by decide), hsp]
        rw [hsp2, List.map_cons, jsTrim_cons_space ' ' h0 (by decide)]
        rw [List.map_cons] at hrest
        exact congrArg (p :: ·) hrest

/-- Inserting a fresh key appends. -/
theorem objInsert_fresh (m : List (List Char × List Char)) (k v : List Char)
    (h : ∀ p ∈ m, p.1 ≠ k) : objInsert m k v = m ++ [(k, v)] := by
  have hany : (m.any fun p => decide (p.1 = k)) = false := by
    rw [List.any_eq_false]
    intro p hp
    simpa using h p hp
  rw [objInsert, if_neg (by simp [hany])]

/-- The head of an append with a non-empty left factor. -/
theorem head?_append_left {α : Type} (l₁ l₂ : List α) (h : l₁ ≠ []) :
    (l₁ ++ l₂).head? = l₁.head? := by
  match l₁ with
  | [] => exact absurd rfl h
  | x :: xs => rfl

/-- The last element of an append with a non-empty right factor. -/
theorem getLast?_append_right {α : Type} (l₁ l₂ : List α) (h : l₂ ≠ []) :
    (l₁ ++ l₂).getLast? = l₂.getLast? := by
  rw [← List.head?_reverse, ← List.head?_reverse, List.reverse_append]
  exact head?_append_left _ _ (by simpa using h)

/-- A rendered `key=value` part keeps clean edges. -/
theorem noEdgeSpace_part (k v : List Char) (hk : k ≠ [])
    (hknes : noEdgeSpace k = true) (hv : v ≠ []) (hvnes : noEdgeSpace v = true) :
    noEdgeSpace (k ++ '=' :: v) = true := by
  rw [noEdgeSpace, Bool.and_eq_true] at hknes hvnes ⊢
  constructor
  · rw [head?_append_left _ _ hk]
    exact hknes.1
  · rw [getLast?_append_right _ _ (by simp)]
    rw [show ('=' :: v) = ['='] ++ v from rfl, getLast?_append_right _ _ hv]
    exact hvnes.2

/-- All facts needed about one rendered pair: the part is comma-free and
trimmed, the key is `=`-free and trimmed, the value truthy and trimmed. -/
theorem pair_facts (k v : List Char) (hkne : k ≠ []) (hkeq : '=' ∉ k)
    (hkc : ',' ∉ k) (hknes : noEdgeSpace k = true) (hkt : jsTrim k = k)
    (hcv : cleanVal v) :
    (',' ∉ k ++ '=' :: v) ∧ jsTrim (k ++ '=' :: v) = k ++ '=' :: v ∧
    '=' ∉ k ∧ jsTrim k = k ∧ v ≠ [] ∧ jsTrim v = v := by
  obtain ⟨hvne, hvc, hvnes⟩ := hcv
  refine ⟨?_, ?_, hkeq, hkt, hvne, jsTrim_eq_self v hvnes⟩
  · intro hmem
    rcases List.mem_append.mp hmem with h1 | h2
    · exact hkc h1
    · rcases List.mem_cons.mp h2 with h3 | h4
      · exact absurd h3 (by decide)
      · exact hvc h4
  · exact jsTrim_eq_self _ (noEdgeSpace_part k v hkne hknes hvne hvnes)

/-- Membership in a conditional singleton. -/
theorem mem_ite_singleton {α : Type} {c : Prop} [Decidable c] {x y : α}
    (h : y ∈ (if c then [x] else [])) : c ∧ y = x := by
  split at h
  · next hc => exact ⟨hc, by simpa using h⟩
  · simp at h

/-- A conditional singleton is a sublist of the singleton. -/
theorem ite_singleton_sublist {α : Type} {c : Prop} [Decidable c] (x : α) :
    (if c then [x] else []).Sublist [x] := by
  split
  · exact List.Sublist.refl _
  · exact List.nil_sublist _

/-- One parse step on a rendered `key=value` part with a fresh key appends
the normalized pair. -/
theorem parseStep_append (subj : List (List Char × List Char)) (k v : List Char)
    (hk : '=' ∉ k) (hkt : jsTrim k = k) (hv : v ≠ []) (hvt : jsTrim v = v)
    (hfresh : ∀ q ∈ subj, q.1 ≠ keyMapLookup k) :
    parseStep subj (k ++ '=' :: v) = subj ++ [(keyMapLookup k, v)] := by
  simp only [parseStep, splitOnChar_append '=' k v hk, joinChar_splitOnChar]
  rw [if_pos hv, hkt, hvt]
  exact objInsert_fresh subj (keyMapLookup k) v hfresh

/-- Folding the parser over rendered parts with distinct normalized keys
appends the normalized pairs in order. -/
theorem parseSubjectDN_fold (pl : List (List Char × List Char))
    (acc : List (List Char × List Char))
    (hinv : ∀ pr ∈ pl, '=' ∉ pr.1 ∧ jsTrim pr.1 = pr.1 ∧ pr.2 ≠ [] ∧ jsTrim pr.2 = pr.2)
    (hfresh : ∀ pr ∈ pl, ∀ q ∈ acc, q.1 ≠ keyMapLookup pr.1)
    (hnodup : (pl.map fun pr => keyMapLookup pr.1).Nodup) :
    List.foldl parseStep acc (pl.map fun pr => pr.1 ++ '=' :: pr.2) =
      acc ++ pl.map fun pr => (keyMapLookup pr.1, pr.2) := by
  induction pl generalizing acc with
  | nil => simp
  | cons pr rest ih =>
    obtain ⟨hk, hkt, hv, hvt⟩ := hinv pr (List.mem_cons_self _ _)
    rw [List.map_cons, List.foldl_cons,
      parseStep_append acc pr.1 pr.2 hk hkt hv hvt
        fun q hq => hfresh pr (List.mem_cons_self _ _) q hq]
    rw [List.map_cons] at hnodup
    have hnd := List.nodup_cons.mp hnodup
    rw [ih (acc ++ [(keyMapLookup pr.1, pr.2)])
        (fun pr' h' => hinv pr' (List.mem_cons_of_mem _ h'))
        (fun pr' h' q hq => ?_) hnd.2]
    · simp
    · rcases List.mem_append.mp hq with hq1 | hq2
      · exact hfresh pr' (List.mem_cons_of_mem _ h') q hq1
      · have hq3 : q = (keyMapLookup pr.1, pr.2) := by simpa using hq2
        subst hq3
        intro he
        have he' : keyMapLookup pr.1 = keyMapLookup pr'.1 := he
        have hmm : keyMapLookup pr'.1 ∈ rest.map fun pr => keyMapLookup pr.1 :=
          List.mem_map_of_mem _ h'
        rw [← he'] at hmm
        exact hnd.1 hmm

/-- C7 (amended): Subject DN round-trip.  For every validated subject
mapping whose present values are non-empty, comma-free, and free of leading
or trailing whitespace, the composer emits the attributes in the fixed
order C, ST, L, O, OU, CN, E (omitting absent ones) and the analyzer's DN
parser recovers exactly those values keyed by the long-form names, in that
order. -/
theorem subjectDN_roundtrip (s : SubjectDescriptor)
    (hcn : cleanVal s.commonName)
    (hc : s.country = [] ∨ cleanVal s.country)
    (hst : s.state = [] ∨ cleanVal s.state)
    (hl : s.locality = [] ∨ cleanVal s.locality)
    (ho : s.organization = [] ∨ cleanVal s.organization)
    (hou : s.organizationalUnit = [] ∨ cleanVal s.organizationalUnit)
    (he : s.email = [] ∨ cleanVal s.email) :
    parseSubjectDN (buildSubjectDN s) = expectedSubject s := by
  have hfacts : ∀ pr ∈ subjectPairs s,
      (',' ∉ pr.1 ++ '=' :: pr.2) ∧ jsTrim (pr.1 ++ '=' :: pr.2) = pr.1 ++ '=' :: pr.2 ∧
      '=' ∉ pr.1 ∧ jsTrim pr.1 = pr.1 ∧ pr.2 ≠ [] ∧ jsTrim pr.2 = pr.2 := by
    intro pr hpr
    simp only [subjectPairs, List.mem_append, or_assoc] at hpr
    rcases hpr with h | h | h | h | h | h | h
    · obtain ⟨hcond, rfl⟩ := mem_ite_singleton h
      exact pair_facts ("C".toList) s.country (by decide) (by decide) (by decide)
        (by decide) (by decide) (hc.resolve_left hcond)
    · obtain ⟨hcond, rfl⟩ := mem_ite_singleton h
      exact pair_facts ("ST".toList) s.state (by decide) (by decide) (by decide)
        (by decide) (by decide) (hst.resolve_left hcond)
    · obtain ⟨hcond, rfl⟩ := mem_ite_singleton h
      exact pair_facts ("L".toList) s.locality (by decide) (by decide) (by decide)
        (by decide) (by decide) (hl.resolve_left hcond)
    · obtain ⟨hcond, rfl⟩ := mem_ite_singleton h
      exact pair_facts ("O".toList) s.organization (by decide) (by decide) (by decide)
        (by decide) (by decide) (ho.resolve_left hcond)
    · obtain ⟨hcond, rfl⟩ := mem_ite_singleton h
      exact pair_facts ("OU".toList) s.organizationalUnit (by decide) (by decide)
        (by decide) (by decide) (by decide) (hou.resolve_left hcond)
    · obtain rfl : pr = ("CN".toList, s.commonName) := by simpa using h
      exact pair_facts ("CN".toList) s.commonName (by decide) (by decide) (by decide)
        (by decide) (by decide) hcn
    · obtain ⟨hcond, rfl⟩ := mem_ite_singleton h
      exact pair_facts ("E".toList) s.email (by decide) (by decide) (by decide)
        (by decide) (by decide) (he.resolve_left hcond)
  have hCNmem : ("CN".toList, s.commonName) ∈ subjectPairs s := by
    rw [subjectPairs]
    exact List.mem_append.mpr (Or.inl (List.mem_append.mpr (Or.inr
      (List.mem_singleton.mpr rfl))))
  have hne : ((subjectPairs s).map fun pr => pr.1 ++ '=' :: pr.2) ≠ [] :=
    List.ne_nil_of_mem (List.mem_map_of_mem _ hCNmem)
  have e1 : keyMapLookup ("C".toList) = "countryName".toList := by decide
  have e2 : keyMapLookup ("ST".toList) = "stateOrProvinceName".toList := by decide
  have e3 : keyMapLookup ("L".toList) = "localityName".toList := by decide
  have e4 : keyMapLookup ("O".toList) = "organizationName".toList := by decide
  have e5 : keyMapLookup ("OU".toList) = "organizationalUnitName".toList := by decide
  have e6 : keyMapLookup ("CN".toList) = "commonName".toList := by decide
  have e7 : keyMapLookup ("E".toList) = "emailAddress".toList := by decide
  have hnodup : ((subjectPairs s).map fun pr => keyMapLookup pr.1).Nodup := by
    have hsub : ((subjectPairs s).map fun pr => keyMapLookup pr.1).Sublist
        (["countryName".toList] ++ ["stateOrProvinceName".toList] ++
         ["localityName".toList] ++ ["organizationName".toList] ++
         ["organizationalUnitName".toList] ++ ["commonName".toList] ++
         ["emailAddress".toList]) := by
      rw [subjectPairs]
      simp only [List.map_append,
        apply_ite (List.map fun pr : List Char × List Char => keyMapLookup pr.1),
        List.map_cons, List.map_nil, e1, e2, e3, e4, e5, e6, e7]
      exact ((((((ite_singleton_sublist _).append (ite_singleton_sublist _)).append
        (ite_singleton_sublist _)).append (ite_singleton_sublist _)).append
        (ite_singleton_sublist _)).append (List.Sublist.refl _)).append
        (ite_singleton_sublist _)
    exact List.Nodup.sublist hsub (by decide)
  have hmap : ((subjectPairs s).map fun pr => (keyMapLookup pr.1, pr.2)) =
      expectedSubject s := by
    rw [subjectPairs, expectedSubject]
    simp only [List.map_append,
      apply_ite (List.map fun pr : List Char × List Char => (keyMapLookup pr.1, pr.2)),
      List.map_cons, List.map_nil, e1, e2, e3, e4, e5, e6, e7]
  have hinv : ∀ pr ∈ subjectPairs s,
      '=' ∉ pr.1 ∧ jsTrim pr.1 = pr.1 ∧ pr.2 ≠ [] ∧ jsTrim pr.2 = pr.2 := by
    intro pr hpr
    exact (hfacts pr hpr).2.2
  have hpart : ∀ p ∈ (subjectPairs s).map fun pr => pr.1 ++ '=' :: pr.2,
      ',' ∉ p ∧ jsTrim p = p := by
    intro p hp
    obtain ⟨pr, hpr, rfl⟩ := List.mem_map.mp hp
    exact ⟨(hfacts pr hpr).1, (hfacts pr hpr).2.1⟩
  rw [parseSubjectDN, buildSubjectDN,
    splitOnChar_joinCommaSpace _ hne hpart,
    parseSubjectDN_fold (subjectPairs s) [] hinv
      (fun pr _ q hq => absurd hq (List.not_mem_nil q)) hnodup]
  simpa using hmap

/-- Witness for the amended C7: a descriptor with country, organization and
common name round-trips to the three long-form attributes in order. -/
theorem subjectDN_roundtrip_witness :
    parseSubjectDN (buildSubjectDN
        ⟨"US".toList, [], [], "Acme".toList, [], "example.com".toList, []⟩) =
      [("countryName".toList, "US".toList),
       ("organizationName".toList, "Acme".toList),
       ("commonName".toList, "example.com".toList)] :=
  (subjectDN_roundtrip ⟨"US".toList, [], [], "Acme".toList, [], "example.com".toList, []⟩
    (by decide) (Or.inr (by decide)) (Or.inl rfl) (Or.inl rfl)
    (Or.inr (by decide)) (Or.inl rfl) (Or.inl rfl)).trans (by decide)

/-- C7 counterexample: the validated common name `"Acme, Inc"` (truthy,
≤ 64 characters) does not round-trip: the parser splits its comma and
recovers `commonName = "Acme"`, not the composed value. -/
theorem subjectDN_roundtrip_counterexample :
    validateCommonName ("Acme, Inc".toList) = true ∧
    parseSubjectDN (buildSubjectDN ⟨[], [], [], [], [], "Acme, Inc".toList, []⟩) =
      [("commonName".toList, "Acme".toList)] ∧
    expectedSubject ⟨[], [], [], [], [], "Acme, Inc".toList, []⟩ =
      [("commonName".toList, "Acme, Inc".toList)] ∧
    ("Acme".toList : List Char) ≠ "Acme, Inc".toList := by decide

end CSRGen
